import Mathlib

/-!
# Verification of the go-sentry-middleware core (`sentry.go`)

A shallow embedding, in Lean 4, of the transport-level interception and
classification pipeline of the `digitalmint/go-sentry-middleware` repository:

* the URL path normalizer `NormalizeUrlPathForSentry`,
* the error-type unwrapper `unwrapToSpecificError` and its pre-send filter,
* the DSN redactor `RedactDSN`,
* the fingerprint pre-send hook `SentryFingerprint`,
* the wrapping transport `LogSentrySendFailures.RoundTrip`.

Go strings and byte slices are modelled as `List Char`; Go `nil`-able values
as `Option`; a Go runtime panic (index out of range) as `Option.none` in the
result of the function that would panic.  I/O streams are modelled by their
contents plus a flag saying whether reading the stream ends in an error
instead of EOF; the inner transport of the interceptor is modelled by its
observable behaviour (the response/error it returns and how many bytes of
the request body it consumed).
-/

namespace SentryMW

/-! ## URL path normalizer (`NormalizeUrlPathForSentry`, sentry.go lines 207-229)

The Go function splits `url.Path` on `"/"`, replaces every segment that is
not exactly `"v1"` or `"v2"` and matches the regex `[0-9]+` (i.e. contains a
decimal digit) by the placeholder (defaulted to `"-omitted-"` when the caller
passes `""`), rejoins with `"/"` and strips one trailing `"/"`
(`strings.TrimSuffix`). -/

def defaultPlaceholder : List Char := "-omitted-".toList

def isDigitChar (c : Char) : Bool := '0' ≤ c && c ≤ '9'

/-- `numericRegex.MatchString(part)` for the regex `[0-9]+`: true iff the
segment contains at least one decimal digit. -/
def containsDigit (part : List Char) : Bool := part.any isDigitChar

def v1seg : List Char := "v1".toList

def v2seg : List Char := "v2".toList

/-- The per-segment replacement performed inside the loop of
`NormalizeUrlPathForSentry`. -/
def normalizeSeg (placeholder part : List Char) : List Char :=
  if part != v1seg && part != v2seg && containsDigit part then placeholder else part

/-- Go `strings.TrimSuffix(s, "/")`: remove one trailing `'/'` if present. -/
def trimSuffixSlash (s : List Char) : List Char :=
  if s.getLast? = some '/' then s.dropLast else s

/-- `NormalizeUrlPathForSentry` (sentry.go 207-229), applied to the path
string of the parsed URL. -/
def NormalizeUrlPathForSentry (path placeholder : List Char) : List Char :=
  let ph := if placeholder = [] then defaultPlaceholder else placeholder
  let pathParts := path.splitOn '/'
  let newParts := pathParts.map (normalizeSeg ph)
  trimSuffixSlash (List.intercalate ['/'] newParts)

/-- Modelled from the spec (§4.1), for comparison with the code: "Splits the
path on `/`; for each segment, if the segment is not exactly `v1` or `v2` and
contains at least one decimal digit, replaces the segment with `placeholder`
(default `-omitted-` when caller passes empty string). Rejoins with `/`;
strips one trailing `/`." -/
def specNormalize (path placeholder : List Char) : List Char :=
  let repl : List Char → List Char := fun seg =>
    if seg = v1seg ∨ seg = v2seg then seg
    else if seg.any isDigitChar then
      (if placeholder = [] then defaultPlaceholder else placeholder)
    else seg
  let joined := List.intercalate ['/'] ((path.splitOn '/').map repl)
  if ['/'].isSuffixOf joined then joined.dropLast else joined

/-! ## Error-type unwrapper (`unwrapToSpecificError`, sentry.go lines 261-309) -/

/-- A Go error chain as traversed by `unwrapToSpecificError`: each link has
a dynamic type name (the string `reflect.TypeOf(err).String()`), and
`errors.Unwrap` either yields the next link (`wrap`) or `nil` (`last`). -/
inductive GoErr where
  | last (typeName : List Char)
  | wrap (typeName : List Char) (inner : GoErr)
deriving DecidableEq

/-- `reflect.TypeOf(err).String()` for a non-nil error. -/
def GoErr.typeName : GoErr → List Char
  | .last t => t
  | .wrap t _ => t

/-- Go `strings.CutPrefix`: `(after, true)` when `pre` is a prefix of `s`,
`(s, false)` otherwise. -/
def cutPre (s pre : List Char) : List Char × Bool :=
  if pre.isPrefixOf s then (s.drop pre.length, true) else (s, false)

/-- The inner prefix loop of `unwrapToSpecificError` (sentry.go 274-285):
try each configured generic prefix, first as-is, then with a leading `*`;
on the first hit return the stripped name and `true`. -/
def stripFilterPre (filterErrorTypes : List (List Char)) (typStr : List Char) :
    List Char × Bool :=
  match filterErrorTypes with
  | [] => (typStr, false)
  | pre :: rest =>
    let c1 := cutPre typStr pre
    if c1.2 then (c1.1, true)
    else
      let c2 := cutPre typStr ('*' :: pre)
      if c2.2 then (c2.1, true) else stripFilterPre rest typStr

/-- The main loop of `unwrapToSpecificError` (sentry.go 265-298), by
structural recursion on the error chain.  Arguments are the current error,
the values of the Go variables `firstTypStr`, and whether `underlying`
currently holds a non-nil error.  Returns the final values of `typStr`,
`firstTypStr` and `underlying != nil`. -/
def unwrapLoop (filterErrorTypes : List (List Char)) :
    GoErr → List Char → Bool → List Char × List Char × Bool
  | .last t, firstTypStr, hasUnderlying =>
    let sf := stripFilterPre filterErrorTypes t
    let first := if firstTypStr = [] then sf.1 else firstTypStr
    if sf.2 then (sf.1, first, false) else (sf.1, first, hasUnderlying)
  | .wrap t e2, firstTypStr, hasUnderlying =>
    let sf := stripFilterPre filterErrorTypes t
    let first := if firstTypStr = [] then sf.1 else firstTypStr
    if sf.2 then unwrapLoop filterErrorTypes e2 first true
    else (sf.1, first, hasUnderlying)

/-- `unwrapToSpecificError` (sentry.go 261-309).  A `nil` error argument is
`none` (that is the only way `reflect.TypeOf` yields `nil` there). -/
def unwrapToSpecificError (err : Option GoErr) (filterErrorTypes : List (List Char)) :
    Option (List Char) :=
  match err with
  | none => none
  | some e =>
    let r := unwrapLoop filterErrorTypes e [] false
    if r.1 = [] then none
    else if r.2.2 then some r.1 else some r.2.1

/-- `defaultFilterErrorTypes` (sentry.go 259). -/
def defaultFilterErrorTypes : List (List Char) :=
  ["errors.".toList, "fmt.wrapError".toList]

/-- The stripped name of one type under the generic-prefix list. -/
def strippedName (filters : List (List Char)) (t : List Char) : List Char :=
  (stripFilterPre filters t).1

/-- Whether one type name matches a configured generic prefix. -/
def isGenericType (filters : List (List Char)) (t : List Char) : Bool :=
  (stripFilterPre filters t).2

/-- Modelled from the spec (§4.3) as amended: walk the chain, tracking the
first non-empty stripped name; stop at the first non-generic link and
return its stripped name, or, on exhaustion, the tracked first name; in
either case return `none` when the stopping link's stripped name is
empty. -/
def classifyRef (filters : List (List Char)) : GoErr → List Char → Option (List Char)
  | e, first =>
    let s := strippedName filters e.typeName
    let first' := if first = [] then s else first
    if isGenericType filters e.typeName then
      match e with
      | .wrap _ e2 => classifyRef filters e2 first'
      | .last _ => if s = [] then none else some first'
    else
      if s = [] then none else some s

/-! ## Error-type pre-send filter (sentry.go lines 231-257) -/

structure SentryException where
  typ : List Char
deriving DecidableEq

structure SentryEvent where
  fingerprint : List (List Char)
  exception : List SentryException
deriving DecidableEq

structure UnwrapAndFilterErrorTypeConfig where
  FilterErrorTypes : List (List Char)

/-- `SentryBeforeSendUnwrapAndFilterErrorType` (sentry.go 239-244): fill in
the default generic prefixes when none are configured (the returned value
is the configuration the returned closure captures). -/
def SentryBeforeSendUnwrapAndFilterErrorType (conf : UnwrapAndFilterErrorTypeConfig) :
    UnwrapAndFilterErrorTypeConfig :=
  if conf.FilterErrorTypes.length = 0 then ⟨defaultFilterErrorTypes⟩ else conf

/-- `sentryBeforeSendUnwrapAndFilterErrorType` (sentry.go 246-257).  The Go
runtime panic from `event.Exception[len(event.Exception)-1]` on an empty
exception list is modelled as `none`. -/
def sentryBeforeSendUnwrapAndFilterErrorType (conf : UnwrapAndFilterErrorTypeConfig)
    (event : SentryEvent) (originalException : Option GoErr) : Option SentryEvent :=
  match originalException with
  | none => some event
  | some oe =>
    match unwrapToSpecificError (some oe) conf.FilterErrorTypes with
    | none => some event
    | some errStr =>
      match event.exception.getLast? with
      | none => none
      | some lastExc =>
        if errStr ≠ lastExc.typ then
          some { event with exception := event.exception.dropLast ++ [⟨errStr⟩] }
        else some event

/-! ## DSN redactor (`RedactDSN`, sentry.go lines 106-112)

The Go function applies `regexp.ReplaceAll` with the pattern
`[^ '"]+sentry\.io/[^ '"]+` and replacement `REDACTED`.  The embedding
implements the RE2 leftmost match with greedy `+` semantics for this
pattern directly: at each position try the longest candidate for the
first `[^ '"]+` (backtracking downwards), then the literal, then the
maximal final `[^ '"]+`. -/

def isDelim (c : Char) : Bool := c = ' ' || c = '\'' || c = '"'

def sentryLit : List Char := "sentry.io/".toList

def redactedTok : List Char := "REDACTED".toList

/-- Match `sentry\.io/[^ '"]+` at the start of `s` (greedy final `+`);
returns the matched length. -/
def matchTail (s : List Char) : Option Nat :=
  if sentryLit.isPrefixOf s then
    let rest := (s.drop sentryLit.length).takeWhile (fun c => !isDelim c)
    if rest.length ≥ 1 then some (sentryLit.length + rest.length) else none
  else none

/-- Backtracking for the greedy leading `[^ '"]+`: try taking `j` characters
(which are non-delimiters by construction of the initial `j`), longest
first. -/
def tryFirst (s : List Char) : Nat → Option Nat
  | 0 => none
  | j+1 =>
    match matchTail (s.drop (j+1)) with
    | some t => some (j + 1 + t)
    | none => tryFirst s j

/-- Length of the leftmost-first match of the pattern at the start of `s`,
if any. -/
def matchAt (s : List Char) : Option Nat :=
  tryFirst s ((s.takeWhile (fun c => !isDelim c)).length)

/-- The `regexp.ReplaceAll` scan of `RedactDSN`: scan left to right; at a
match, emit `REDACTED` and continue after the match, otherwise emit the
character and move one position.  The `fuel` argument (always instantiated
with the buffer length, which every step strictly decreases below) makes
the recursion structural and hence kernel-evaluable; the fuel-exhausted
branch is never reached when `s.length ≤ fuel`. -/
def redactLoop : Nat → List Char → List Char
  | _, [] => []
  | 0, s => s
  | fuel+1, c :: rest =>
    match matchAt (c :: rest) with
    | some n => redactedTok ++ redactLoop fuel ((c :: rest).drop n)
    | none => c :: redactLoop fuel rest

/-- `RedactDSN` (sentry.go 106-112): replace every match of the pattern
`[^ '"]+sentry\.io/[^ '"]+` by `REDACTED`. -/
def RedactDSN (body : List Char) : List Char :=
  redactLoop body.length body

/-- Does a maximal delimiter-free run contain `sentry.io/` preceded by at
least one character and followed by at least one character (all within the
run)?  Modelled from the spec (§4.5 / C7) for comparison with the code. -/
def qualifiesRun (run : List Char) : Bool :=
  (List.range run.length).any fun i =>
    decide (1 ≤ i) && sentryLit.isPrefixOf (run.drop i)
      && decide (i + sentryLit.length < run.length)

/-- Modelled from the spec (§4.5 / C7): split the buffer into maximal runs
of non-space, non-quote characters; replace each qualifying run wholesale
with `REDACTED`; leave all other characters unchanged. -/
def specRedact : List Char → List Char
  | [] => []
  | c :: rest =>
    if hd : isDelim c then c :: specRedact rest
    else
      let run := (c :: rest).takeWhile (fun c => !isDelim c)
      (if qualifiesRun run then redactedTok else run)
        ++ specRedact ((c :: rest).drop run.length)
termination_by s => s.length
decreasing_by
  · simp
  · have hrun : (c :: rest).takeWhile (fun c => !isDelim c)
        = c :: rest.takeWhile (fun c => !isDelim c) := by
      rw [List.takeWhile_cons_of_pos]
      simp [hd]
    simp only [hrun, List.length_drop, List.length_cons]
    omega

/-! ## Fingerprint engine (sentry.go lines 20-78) -/

/-- `SentryError500` (sentry.go 20-23). -/
structure SentryError500 where
  Url : List Char
  Body : List Char

/-- The hint's `OriginalException` as inspected by `SentryFingerprint`:
either a `SentryError500` value or an error of any other dynamic type. -/
inductive FingerprintHintErr where
  | e500 (e : SentryError500)
  | otherErr

/-- The part of `url.URL` that `NormalizeUrlPathForSentry` reads. -/
structure URL where
  Path : List Char

/-- `SentryFingerprint` (sentry.go 34-51), parametric in the `url.Parse`
function (`parse` returning `none` models a parse error).  Returns the
event and whether a non-nil error was returned to the caller. -/
def SentryFingerprint (parse : List Char → Option URL) (event : SentryEvent)
    (originalException : Option FingerprintHintErr) : SentryEvent × Bool :=
  match originalException with
  | some (.e500 ex) =>
    let message := if ex.Body.length > 15 then ex.Body.take 15 else ex.Body
    match parse ex.Url with
    | none => (event, true)
    | some u =>
      let newPath := NormalizeUrlPathForSentry u.Path []
      ({ event with fingerprint := [newPath, message] }, false)
  | _ => (event, false)

/-- The `BeforeSend` closure installed by `HubCustomFingerprint`
(sentry.go 66-72): run `SentryFingerprint`; on error invoke the injected
`fingerprintErrHandler`; always pass the event on.  Returns the event
and whether the handler was invoked. -/
def hubBeforeSend (parse : List Char → Option URL) (event : SentryEvent)
    (originalException : Option FingerprintHintErr) : SentryEvent × Bool :=
  let r := SentryFingerprint parse event originalException
  (r.1, r.2)

/-! ## Reporting transport interceptor (`LogSentrySendFailures.RoundTrip`,
sentry.go lines 140-203) -/

/-- A readable body stream: the bytes it yields, and whether reading it to
the end produces an error instead of EOF. -/
structure BodyStream where
  data : List Char
  readErr : Bool
deriving DecidableEq

structure HTTPResponse where
  StatusCode : Int
  Body : BodyStream
deriving DecidableEq

/-- Observable behaviour of the wrapped inner transport on the request:
the `(response, error)` pair it returns, and how many bytes of the request
body it consumed through the tee before returning. -/
structure InnerTransport where
  resp : Option HTTPResponse
  err : Option (List Char)
  consumed : Nat

/-- `ErrSentryRoundTrip` (sentry.go 114-121); `ErrPresent` models a non-nil
`Err` field; absent byte-slice fields are `none`; the `Exception` list is
`[]` when the decoded event is the zero value. -/
structure ErrSentryRoundTrip where
  Msg : List Char
  ErrPresent : Bool
  Status : Int
  Request : Option (List Char)
  Exception : List SentryException
  Response : Option (List Char)
deriving DecidableEq

/-- Everything observable about one interceptor round trip: what is
returned to the caller, the diagnostic records handed to the error
handler in order, and the bytes a re-read of `req.Body` yields after the
call. -/
structure RoundTripResult where
  resp : Option HTTPResponse
  err : Option (List Char)
  records : List ErrSentryRoundTrip
  reqBodyAfter : Option (List Char)

def sentryEventMsg : List Char := "Sentry event".toList

def recoverBodyMsg : List Char :=
  "Sentry event send failure: error recovering request body".toList

def recoverJsonMsg : List Char :=
  "Sentry event send failure: error recovering request json".toList

def readRespMsg : List Char :=
  "Sentry event send failure: error reading response body".toList

/-- The status code recorded by the interceptor: `resp.StatusCode`, or `0`
when no response was received (sentry.go 154-157). -/
def recStatus (inner : InnerTransport) : Int :=
  match inner.resp with
  | some r => r.StatusCode
  | none => 0

/-- `LogSentrySendFailures.RoundTrip` (sentry.go 140-203), parametric in
`json.Unmarshal` for the event shape (`decode`; `none` models a decode
error, `some l` a decoded event whose `Exception` field is `l`).

The tee/buffer dance is modelled by its observable effect: the inner
transport consumes `consumed` bytes through the tee (clamped to the body
length), which land in the buffer; on the failure path `io.ReadAll(tee)`
reads the remaining bytes (they also land in the buffer) and then hits
EOF, or the stream's read error if it has one; `req.Body` is restored to
the buffer.  A present response has its body teed into a fresh buffer
that replaces `resp.Body`, so the caller sees the same bytes with any
read error masked. -/
def LogSentrySendFailuresRoundTrip
    (decode : List Char → Option (List SentryException)) :
    Option BodyStream → InnerTransport → RoundTripResult
  | none, inner =>
    { resp := inner.resp, err := inner.err, records := [], reqBodyAfter := none }
  | some b, inner =>
    let consumed := min inner.consumed b.data.length
    let statusCode := recStatus inner
    if statusCode ≥ 400 ∨ inner.resp = none then
      if b.readErr then
        { resp := inner.resp, err := inner.err,
          records := [⟨recoverBodyMsg, true, statusCode, none, [], none⟩],
          reqBodyAfter := some b.data }
      else
        let body := b.data.drop consumed
        let decoded := decode body
        let decRecords : List ErrSentryRoundTrip :=
          match decoded with
          | none => [⟨recoverJsonMsg, true, statusCode, some (RedactDSN body), [], none⟩]
          | some _ => []
        let eventExc := decoded.getD []
        match inner.resp with
        | some r =>
          let rspRecords : List ErrSentryRoundTrip :=
            if r.Body.readErr then [⟨readRespMsg, true, statusCode, none, [], none⟩]
            else []
          { resp := some { r with Body := ⟨r.Body.data, false⟩ },
            err := inner.err,
            records := decRecords ++ rspRecords
              ++ [⟨sentryEventMsg, false, statusCode, none, eventExc,
                    some (RedactDSN r.Body.data)⟩],
            reqBodyAfter := some b.data }
        | none =>
          { resp := none, err := inner.err,
            records := decRecords
              ++ [⟨sentryEventMsg, false, statusCode, none, eventExc,
                    some (RedactDSN [])⟩],
            reqBodyAfter := some b.data }
    else
      { resp := inner.resp, err := inner.err, records := [],
        reqBodyAfter := some (b.data.take consumed) }

/-! ### List helper lemmas for the normalizer -/

theorem splitOnP_not_mem {α : Type} (p : α → Bool) :
    ∀ (xs : List α) (s : List α), s ∈ xs.splitOnP p → ∀ a ∈ s, ¬ p a := by
  intro xs
  induction xs with
  | nil =>
    intro s hs a ha
    simp [List.splitOnP_nil] at hs
    subst hs
    simp at ha
  | cons x xs ih =>
    intro s hs a ha
    rw [List.splitOnP_cons] at hs
    by_cases hx : p x
    · simp [hx] at hs
      rcases hs with h | h
      · subst h; simp at ha
      · exact ih s h a ha
    · simp [hx] at hs
      rcases hxs : xs.splitOnP p with _ | ⟨h0, t⟩
      · exact absurd hxs (List.splitOnP_ne_nil p xs)
      · rw [hxs] at hs
        simp [List.modifyHead] at hs
        rcases hs with h | h
        · subst h
          rcases ha with _ | ha
          · simp [hx]
          · next ha =>
            exact ih h0 (hxs ▸ List.mem_cons_self h0 t) a ha
        · exact ih s (hxs ▸ List.mem_cons_of_mem h0 h) a ha

theorem splitOn_not_mem {α : Type} [DecidableEq α] (x : α) (xs : List α) :
    ∀ s ∈ xs.splitOn x, x ∉ s := by
  intro s hs hx
  have := splitOnP_not_mem (fun a => a == x) xs s hs x hx
  simp at this

theorem splitOn_ne_nil {α : Type} [DecidableEq α] (x : α) (xs : List α) :
    xs.splitOn x ≠ [] :=
  List.splitOnP_ne_nil _ xs

theorem intercalate_cons_cons {α : Type} (sep b c : List α) (t : List (List α)) :
    List.intercalate sep (b :: c :: t) = b ++ sep ++ List.intercalate sep (c :: t) := by
  simp [List.intercalate]

theorem intercalate_singleton {α : Type} (sep a : List α) :
    List.intercalate sep [a] = a := by
  simp [List.intercalate]

theorem intercalate_concat {α : Type} (sep : List α) (xs : List (List α)) (a : List α)
    (h : xs ≠ []) :
    List.intercalate sep (xs ++ [a]) = List.intercalate sep xs ++ sep ++ a := by
  induction xs with
  | nil => simp at h
  | cons b t ih =>
    cases t with
    | nil => simp [intercalate_cons_cons, intercalate_singleton]
    | cons c t' =>
      rw [show (b :: c :: t') ++ [a] = b :: c :: (t' ++ [a]) from rfl,
        intercalate_cons_cons,
        show c :: (t' ++ [a]) = (c :: t') ++ [a] from rfl,
        ih (by simp), intercalate_cons_cons]
      simp [List.append_assoc]

/-- For lists of `'/'`-free segments, the intercalation ends in `'/'` exactly
when the last segment is empty and there are at least two segments. -/
theorem getLast?_intercalate_slash {ms : List (List Char)} (hne : ms ≠ [])
    (hm : ∀ m ∈ ms, '/' ∉ m) :
    ((List.intercalate ['/'] ms).getLast? = some '/') ↔
      (ms.getLast? = some [] ∧ 2 ≤ ms.length) := by
  obtain ⟨xs, a, rfl⟩ : ∃ xs a, ms = xs ++ [a] :=
    ⟨ms.dropLast, ms.getLast hne, (List.dropLast_append_getLast hne).symm⟩
  have ha : '/' ∉ a := hm a (by simp)
  cases xs with
  | nil =>
    simp only [List.nil_append, intercalate_singleton, List.getLast?_concat,
      List.length_singleton]
    constructor
    · intro hl
      exact absurd (List.mem_of_mem_getLast? hl) ha
    · rintro ⟨-, h2⟩
      omega
  | cons b t =>
    rw [intercalate_concat _ _ _ (by simp)]
    cases a with
    | nil =>
      rw [List.append_nil, List.getLast?_concat, List.getLast?_concat]
      constructor
      · intro _
        refine ⟨rfl, ?_⟩
        simp [List.length_append]
      · intro _
        rfl
    | cons c a' =>
      have hgl : ((List.intercalate ['/'] (b :: t) ++ ['/']) ++ c :: a').getLast? =
          (c :: a').getLast? := by
        rw [List.getLast?_append]
        cases hgc : (c :: a').getLast? with
        | none => simp at hgc
        | some y => simp
      rw [hgl, List.getLast?_concat]
      constructor
      · intro hl
        exact absurd (List.mem_of_mem_getLast? hl) ha
      · rintro ⟨h1, -⟩
        simp at h1

/-- The segment mapper of `NormalizeUrlPathForSentry` is idempotent whenever
the placeholder contains no digit. -/
theorem normalizeSeg_idem {ph : List Char} (hph : containsDigit ph = false) (s : List Char) :
    normalizeSeg ph (normalizeSeg ph s) = normalizeSeg ph s := by
  unfold normalizeSeg
  by_cases h : (s != v1seg && s != v2seg && containsDigit s) = true
  · rw [if_pos h]
    simp [hph]
  · rw [if_neg h, if_neg h]

/-- The segment mapper either returns the placeholder or the segment itself. -/
theorem normalizeSeg_cases (ph s : List Char) :
    normalizeSeg ph s = ph ∨ normalizeSeg ph s = s := by
  unfold normalizeSeg
  by_cases h : (s != v1seg && s != v2seg && containsDigit s) = true
  · rw [if_pos h]; exact Or.inl rfl
  · rw [if_neg h]; exact Or.inr rfl

/-- On an intercalation of slash-free, already-normalized segments, the
normalizer is just the trailing-slash trim. -/
theorem norm_intercalate (ms : List (List Char)) (hne : ms ≠ [])
    (hslash : ∀ m ∈ ms, '/' ∉ m)
    (hfix : ∀ m ∈ ms, normalizeSeg defaultPlaceholder m = m) :
    NormalizeUrlPathForSentry (List.intercalate ['/'] ms) defaultPlaceholder
      = trimSuffixSlash (List.intercalate ['/'] ms) := by
  unfold NormalizeUrlPathForSentry
  rw [if_neg (by decide)]
  rw [List.splitOn_intercalate ms '/' hslash hne]
  show trimSuffixSlash (List.intercalate ['/'] (ms.map (normalizeSeg defaultPlaceholder)))
      = trimSuffixSlash (List.intercalate ['/'] ms)
  have hm : ms.map (normalizeSeg defaultPlaceholder) = ms.map id :=
    List.map_congr_left hfix
  rw [hm, List.map_id]

/-- The normalizer fixes `trim (intercalate ms)` for every nonempty list of
slash-free, already-normalized segments not ending in two empty segments
with at least three segments in total. -/
theorem norm_fixed (ms : List (List Char)) (hne : ms ≠ [])
    (hslash : ∀ m ∈ ms, '/' ∉ m)
    (hfix : ∀ m ∈ ms, normalizeSeg defaultPlaceholder m = m)
    (hshape : ¬ (ms.getLast? = some [] ∧ ms.dropLast.getLast? = some [] ∧ 3 ≤ ms.length)) :
    NormalizeUrlPathForSentry (trimSuffixSlash (List.intercalate ['/'] ms)) defaultPlaceholder
      = trimSuffixSlash (List.intercalate ['/'] ms) := by
  by_cases hlast : ms.getLast? = some []
  · obtain ⟨xs, rfl⟩ : ∃ xs, ms = xs ++ [([] : List Char)] :=
      List.getLast?_eq_some_iff.mp hlast
    cases xs with
    | nil =>
      rw [List.nil_append, intercalate_singleton]
      decide
    | cons x xs' =>
      rw [intercalate_concat _ _ _ (by simp), List.append_nil]
      have htrim : trimSuffixSlash (List.intercalate ['/'] (x :: xs') ++ ['/'])
          = List.intercalate ['/'] (x :: xs') := by
        unfold trimSuffixSlash
        rw [if_pos (List.getLast?_concat _), List.dropLast_concat]
      rw [htrim]
      have hsub : ∀ m ∈ x :: xs', m ∈ (x :: xs') ++ [([] : List Char)] := by
        intro m hm; exact List.mem_append_left _ hm
      rw [norm_intercalate (x :: xs') (by simp)
        (fun m hm => hslash m (hsub m hm)) (fun m hm => hfix m (hsub m hm))]
      unfold trimSuffixSlash
      rw [if_neg]
      intro hbad
      rw [getLast?_intercalate_slash (by simp)
        (fun m hm => hslash m (hsub m hm))] at hbad
      apply hshape
      refine ⟨List.getLast?_concat _, ?_, ?_⟩
      · rw [List.dropLast_concat]
        exact hbad.1
      · have := hbad.2
        simp only [List.length_append, List.length_cons, List.length_singleton] at *
        omega
  · have htr : trimSuffixSlash (List.intercalate ['/'] ms) = List.intercalate ['/'] ms := by
      unfold trimSuffixSlash
      rw [if_neg]
      intro hbad
      rw [getLast?_intercalate_slash hne hslash] at hbad
      exact hlast hbad.1
    rw [htr, norm_intercalate ms hne hslash hfix, htr]

/-- C4 (counterexample): normalization is not idempotent as claimed for
every path: the path `"//"` normalizes to `"/"`, which normalizes further
to `""`, because `strings.TrimSuffix` strips only one trailing slash. -/
theorem C4_counterexample :
    NormalizeUrlPathForSentry
        (NormalizeUrlPathForSentry "//".toList defaultPlaceholder) defaultPlaceholder
      ≠ NormalizeUrlPathForSentry "//".toList defaultPlaceholder := by
  decide

/-- C4 (amended): URL path normalization with the default placeholder is
idempotent for every path that does not end in two consecutive slashes:
`normalize (normalize p) = normalize p` whenever `"//"` is not a suffix of
`p`. -/
theorem C4_normalize_idempotent (p : List Char) (h : ¬ (['/', '/'] <:+ p)) :
    NormalizeUrlPathForSentry (NormalizeUrlPathForSentry p defaultPlaceholder) defaultPlaceholder
      = NormalizeUrlPathForSentry p defaultPlaceholder := by
  have hrw : NormalizeUrlPathForSentry p defaultPlaceholder
      = trimSuffixSlash (List.intercalate ['/']
          ((p.splitOn '/').map (normalizeSeg defaultPlaceholder))) := by
    unfold NormalizeUrlPathForSentry
    rw [if_neg (by decide)]
  rw [hrw]
  have hphd : containsDigit defaultPlaceholder = false := by decide
  have hphs : '/' ∉ defaultPlaceholder := by decide
  have hphn : defaultPlaceholder ≠ [] := by decide
  apply norm_fixed
  · intro hnil
    exact splitOn_ne_nil '/' p (List.map_eq_nil_iff.mp hnil)
  · intro m hm
    obtain ⟨s, hs, rfl⟩ := List.mem_map.mp hm
    rcases normalizeSeg_cases defaultPlaceholder s with hc | hc <;> rw [hc]
    · exact hphs
    · exact splitOn_not_mem '/' p s hs
  · intro m hm
    obtain ⟨s, hs, rfl⟩ := List.mem_map.mp hm
    exact normalizeSeg_idem hphd s
  · rintro ⟨h1, h2, h3⟩
    apply h
    have hseg_ne : ∀ s : List Char, normalizeSeg defaultPlaceholder s = [] → s = [] := by
      intro s hz
      rcases normalizeSeg_cases defaultPlaceholder s with hc | hc
      · exact absurd (hc ▸ hz) hphn
      · exact hc ▸ hz
    rw [List.getLast?_map] at h1
    obtain ⟨a, ha, haz⟩ := Option.map_eq_some'.mp h1
    have ha0 : a = [] := hseg_ne a haz
    rw [← List.map_dropLast, List.getLast?_map] at h2
    obtain ⟨b, hb, hbz⟩ := Option.map_eq_some'.mp h2
    have hb0 : b = [] := hseg_ne b hbz
    rw [List.length_map] at h3
    subst ha0
    obtain ⟨u, hu⟩ := List.getLast?_eq_some_iff.mp ha
    subst hb0
    have hud : (p.splitOn '/').dropLast = u := hu ▸ List.dropLast_concat
    rw [hud] at hb
    obtain ⟨w, hw⟩ := List.getLast?_eq_some_iff.mp hb
    have hw_ne : w ≠ [] := by
      intro hwnil
      rw [hu, hw, hwnil] at h3
      simp at h3
    have hp : p = List.intercalate ['/'] (p.splitOn '/') :=
      (List.intercalate_splitOn p '/').symm
    rw [hu, hw] at hp
    rw [show (w ++ [([] : List Char)]) ++ [([] : List Char)]
        = (w ++ [([] : List Char)]) ++ [([] : List Char)] from rfl] at hp
    rw [intercalate_concat _ _ _ (by simp), intercalate_concat _ _ _ hw_ne] at hp
    refine ⟨List.intercalate ['/'] w, ?_⟩
    rw [hp]
    simp

theorem isSuffixOf_slash_iff (j : List Char) :
    (['/'].isSuffixOf j) = true ↔ j.getLast? = some '/' := by
  rw [List.isSuffixOf_iff_suffix, List.getLast?_eq_some_iff]
  constructor
  · rintro ⟨t, rfl⟩
    exact ⟨t, rfl⟩
  · rintro ⟨t, rfl⟩
    exact ⟨t, rfl⟩

theorem normalizeSeg_eq_spec (placeholder seg : List Char) :
    normalizeSeg (if placeholder = [] then defaultPlaceholder else placeholder) seg
      = (if seg = v1seg ∨ seg = v2seg then seg
         else if seg.any isDigitChar then
           (if placeholder = [] then defaultPlaceholder else placeholder)
         else seg) := by
  unfold normalizeSeg containsDigit
  by_cases h1 : seg = v1seg
  · simp [h1]
  · by_cases h2 : seg = v2seg
    · simp [h1, h2]
    · by_cases h3 : seg.any isDigitChar
      · simp [h1, h2, h3]
      · simp [h1, h2, h3]

/-- C5: the normalizer splits the path on `/`, replaces each segment that is
not exactly `v1` or `v2` and contains at least one decimal digit with the
placeholder (defaulting to `-omitted-` when the caller passes the empty
string), leaves the other segments unchanged, rejoins with `/` and strips
one trailing `/` (stated as equivalence with a reference function
transcribed from the spec's words); in particular `/v1/users/42`
normalizes to `/v1/users/` followed by `-omitted-`. -/
theorem C5_normalize_spec :
    (∀ path placeholder : List Char,
        NormalizeUrlPathForSentry path placeholder = specNormalize path placeholder) ∧
      NormalizeUrlPathForSentry "/v1/users/42".toList []
        = "/v1/users/-omitted-".toList := by
  constructor
  · intro path placeholder
    unfold NormalizeUrlPathForSentry specNormalize
    have hfun : normalizeSeg (if placeholder = [] then defaultPlaceholder else placeholder)
        = (fun seg => if seg = v1seg ∨ seg = v2seg then seg
            else if seg.any isDigitChar then
              (if placeholder = [] then defaultPlaceholder else placeholder)
            else seg) :=
      funext (normalizeSeg_eq_spec placeholder)
    simp only [NormalizeUrlPathForSentry, specNormalize]
    rw [hfun]
    generalize List.intercalate ['/'] _ = j
    unfold trimSuffixSlash
    by_cases hj : j.getLast? = some '/'
    · rw [if_pos hj, if_pos ((isSuffixOf_slash_iff j).mpr hj)]
    · rw [if_neg hj, if_neg (fun hc => hj ((isSuffixOf_slash_iff j).mp hc))]
  · decide

/-- C4 (witness): the amended idempotence theorem applied at the concrete
path `"/v1/users/42"`. -/
theorem C4_witness :
    ¬ (['/', '/'] <:+ "/v1/users/42".toList) ∧
      NormalizeUrlPathForSentry
          (NormalizeUrlPathForSentry "/v1/users/42".toList defaultPlaceholder) defaultPlaceholder
        = NormalizeUrlPathForSentry "/v1/users/42".toList defaultPlaceholder :=
  ⟨by decide, C4_normalize_idempotent "/v1/users/42".toList (by decide)⟩

/-! ### The unwrapper agrees with the amended classification -/

theorem unwrapLoop_eq_classifyRef (filters : List (List Char)) :
    ∀ (e : GoErr) (first : List Char),
      (let r := unwrapLoop filters e first true
       if r.1 = [] then none else if r.2.2 then some r.1 else some r.2.1)
      = classifyRef filters e first := by
  intro e
  induction e with
  | last t =>
    intro first
    simp only [unwrapLoop, classifyRef, strippedName, isGenericType, GoErr.typeName]
    cases hsf : (stripFilterPre filters t).2 with
    | true => simp
    | false => simp
  | wrap t e2 ih =>
    intro first
    simp only [unwrapLoop, classifyRef, strippedName, isGenericType, GoErr.typeName]
    cases hsf : (stripFilterPre filters t).2 with
    | true => simp [ih]
    | false => simp

theorem unwrap_eq_classifyRef (filters : List (List Char)) (e : GoErr) :
    unwrapToSpecificError (some e) filters = classifyRef filters e [] := by
  cases e with
  | last t =>
    simp only [unwrapToSpecificError, unwrapLoop, classifyRef, strippedName,
      isGenericType, GoErr.typeName]
    cases hsf : (stripFilterPre filters t).2 with
    | true => simp
    | false => simp
  | wrap t e2 =>
    simp only [unwrapToSpecificError, unwrapLoop, classifyRef, strippedName,
      isGenericType, GoErr.typeName]
    cases hsf : (stripFilterPre filters t).2 with
    | true =>
      simp only [if_true, if_pos]
      have := unwrapLoop_eq_classifyRef filters e2
        (if ([] : List Char) = [] then (stripFilterPre filters t).1 else [])
      simpa using this
    | false => simp

/-- C3 (amended): the unwrapper returns the stripped type name of the first
(outermost-first) error whose type name matches no configured prefix; if
the chain is exhausted while every visited type matched, it returns the
first non-empty stripped name observed; in both cases the result is `none`
when the stopping link's stripped name is empty, so `none` is returned
exactly when the chain is empty from the start or the stopping link strips
to the empty string (stated as equivalence with a reference walk
transcribed from the amended spec).  With the default prefixes, a plain
standard error yields `errorString`, a custom `sentry.testErr` yields
itself, and a `fmt`-wrapped `sentry.testErr` unwraps to the same name. -/
theorem C3_unwrap_classification :
    (∀ (filters : List (List Char)) (err : Option GoErr),
        unwrapToSpecificError err filters
          = (match err with
             | none => none
             | some e => classifyRef filters e []))
    ∧ unwrapToSpecificError (some (.last "*errors.errorString".toList))
        defaultFilterErrorTypes = some "errorString".toList
    ∧ unwrapToSpecificError (some (.last "sentry.testErr".toList))
        defaultFilterErrorTypes = some "sentry.testErr".toList
    ∧ unwrapToSpecificError
        (some (.wrap "*fmt.wrapError".toList (.last "sentry.testErr".toList)))
        defaultFilterErrorTypes = some "sentry.testErr".toList := by
  refine ⟨?_, by decide, by decide, by decide⟩
  intro filters err
  cases err with
  | none => rfl
  | some e => exact unwrap_eq_classifyRef filters e

/-- C3 (counterexample): with the single configured prefix
`sentry.testErr`, the one-link chain of dynamic type `sentry.testErr`
(constructible in Go as `unwrapToSpecificError(testErr{},
[]string{"sentry.testErr"})`) strips to the empty string and the function
returns `none`, although the dynamic type is non-empty and the
chain-exhausted fallback would demand the first stripped name observed. -/
theorem C3_counterexample :
    unwrapToSpecificError (some (.last "sentry.testErr".toList))
        ["sentry.testErr".toList] = none
      ∧ "sentry.testErr".toList ≠ [] :=
  ⟨by decide, by decide⟩

/-- C2: evaluating the pre-send filter at an event with an empty exception
list and a hint carrying a plain `errors.New` error (dynamic type
`*errors.errorString`): the guard `errStr != nil` passes, so
`event.Exception[len(event.Exception)-1]` is evaluated at index `-1` and
the code panics (modelled as `none`) instead of performing the no-op the
spec mandates. -/
theorem C2_empty_exception_panics :
    sentryBeforeSendUnwrapAndFilterErrorType ⟨defaultFilterErrorTypes⟩
        ⟨[], []⟩ (some (.last "*errors.errorString".toList)) = none := by
  decide

/-- C6: for every parse function, event and hint: a `SentryError500`
original error with a parsable URL sets the event's fingerprint to the
two-element list of the normalized URL path and the first 15 bytes of the
body (the whole body if shorter), returning no error; a URL parse failure
returns the error to `HubCustomFingerprint`'s closure — which hands it to
the injected callback and never raises it — and leaves the fingerprint
untouched; an absent or differently-typed original error leaves the event
untouched. -/
theorem C6_fingerprint (parse : List Char → Option URL) (event : SentryEvent) :
    (∀ ex u, parse ex.Url = some u →
      SentryFingerprint parse event (some (.e500 ex))
        = ({ event with
              fingerprint := [NormalizeUrlPathForSentry u.Path [], ex.Body.take 15] },
            false)
      ∧ hubBeforeSend parse event (some (.e500 ex))
        = ({ event with
              fingerprint := [NormalizeUrlPathForSentry u.Path [], ex.Body.take 15] },
            false))
    ∧ (∀ ex, parse ex.Url = none →
      SentryFingerprint parse event (some (.e500 ex)) = (event, true)
      ∧ hubBeforeSend parse event (some (.e500 ex)) = (event, true))
    ∧ SentryFingerprint parse event none = (event, false)
    ∧ SentryFingerprint parse event (some .otherErr) = (event, false) := by
  have hmsg : ∀ ex : SentryError500,
      (if ex.Body.length > 15 then ex.Body.take 15 else ex.Body) = ex.Body.take 15 := by
    intro ex
    by_cases h : ex.Body.length > 15
    · rw [if_pos h]
    · rw [if_neg h]
      exact (List.take_of_length_le (by omega)).symm
  refine ⟨?_, ?_, rfl, rfl⟩
  · intro ex u hu
    constructor
    · simp only [SentryFingerprint, hu, hmsg ex]
    · simp only [hubBeforeSend, SentryFingerprint, hu, hmsg ex]
  · intro ex hu
    constructor
    · simp only [SentryFingerprint, hu]
    · simp only [hubBeforeSend, SentryFingerprint, hu]

/-- C6 (witness): the fingerprint theorem applied at a concrete parse
function, event and `SentryError500`. -/
theorem C6_witness :
    SentryFingerprint (fun _ => some ⟨"/a/7".toList⟩) ⟨[], []⟩
        (some (.e500 ⟨"u".toList, "0123456789abcdefXYZ".toList⟩))
      = (⟨[NormalizeUrlPathForSentry "/a/7".toList [],
            "0123456789abcde".toList], []⟩, false) := by
  have h := (C6_fingerprint (fun _ => some ⟨"/a/7".toList⟩) ⟨[], []⟩).1
    ⟨"u".toList, "0123456789abcdefXYZ".toList⟩ ⟨"/a/7".toList⟩ rfl
  rw [h.1]
  decide

/-! ### Round-trip transparency and diagnostics -/

/-- C1: for every request and inner-transport behaviour, the interceptor
returns exactly the inner transport's error, and a response exactly when
the inner transport returned one, with the same status code and the same
bytes obtainable from its body — whether or not any diagnostic emission
happened on the failure path. -/
theorem C1_roundtrip_transparent (decode : List Char → Option (List SentryException))
    (reqBody : Option BodyStream) (inner : InnerTransport) :
    (LogSentrySendFailuresRoundTrip decode reqBody inner).err = inner.err
    ∧ ((LogSentrySendFailuresRoundTrip decode reqBody inner).resp).map
        (fun r => (r.StatusCode, r.Body.data))
      = (inner.resp).map (fun r => (r.StatusCode, r.Body.data)) := by
  cases reqBody with
  | none => exact ⟨rfl, rfl⟩
  | some b =>
    simp only [LogSentrySendFailuresRoundTrip]
    by_cases hfail : recStatus inner ≥ 400 ∨ inner.resp = none
    · rw [if_pos hfail]
      cases hre : b.readErr with
      | true => exact ⟨rfl, rfl⟩
      | false =>
        rw [if_neg (by simp [hre])]
        cases hresp : inner.resp with
        | none => exact ⟨rfl, rfl⟩
        | some r => exact ⟨rfl, rfl⟩
    · rw [if_neg hfail]
      exact ⟨rfl, rfl⟩

/-- C9 (counterexample): an inner transport that consumes none of the
request body and returns a 200 response leaves the restored request body
equal to the (empty) buffer, so re-reading does not yield the original
byte `'a'`. -/
theorem C9_counterexample :
    (LogSentrySendFailuresRoundTrip (fun _ => none)
        (some ⟨['a'], false⟩) ⟨some ⟨200, ⟨[], false⟩, ⟩, none, 0⟩).reqBodyAfter
      = some []
    ∧ (['a'] : List Char) ≠ [] := by
  exact ⟨by decide, by decide⟩

/-- C9 (amended): after the interceptor's round trip, the request body has
been restored to the buffered copy, and re-reading it yields exactly the
original body bytes provided the inner transport consumed the whole body,
or the failure path ran (status ≥ 400 or no response) — there the
recovery read's tee refills the buffer with the remaining bytes (even
when that read ends in a stream error, the bytes read before the error
were already copied). -/
theorem C9_body_restored (decode : List Char → Option (List SentryException))
    (b : BodyStream) (inner : InnerTransport)
    (h : b.data.length ≤ inner.consumed
        ∨ recStatus inner ≥ 400 ∨ inner.resp = none) :
    (LogSentrySendFailuresRoundTrip decode (some b) inner).reqBodyAfter = some b.data := by
  simp only [LogSentrySendFailuresRoundTrip]
  by_cases hfail : recStatus inner ≥ 400 ∨ inner.resp = none
  · rw [if_pos hfail]
    cases hre : b.readErr with
    | true => rfl
    | false =>
      rw [if_neg (by simp [hre])]
      cases hresp : inner.resp with
      | none => rfl
      | some r => rfl
  · rw [if_neg hfail]
    have hc : b.data.length ≤ inner.consumed := by tauto
    show some (b.data.take (min inner.consumed b.data.length)) = some b.data
    rw [min_eq_right hc, List.take_of_length_le (le_refl _)]

/-- C9 (witness): the amended restoration theorem applied at an inner
transport that consumed the whole two-byte body. -/
theorem C9_witness :
    (LogSentrySendFailuresRoundTrip (fun _ => none)
        (some ⟨['a', 'b'], false⟩) ⟨some ⟨200, ⟨[], false⟩⟩, none, 2⟩).reqBodyAfter
      = some ['a', 'b'] :=
  C9_body_restored (fun _ => none) ⟨['a', 'b'], false⟩
    ⟨some ⟨200, ⟨[], false⟩⟩, none, 2⟩ (Or.inl (by decide))

/-- C8: on every failure path (status ≥ 400, or no response with status
recorded as 0), if the recovery read of the request-body copy fails, the
interceptor emits exactly the single record with the recovering-request-
body message; otherwise it emits the final record with message
`Sentry event`, the recorded status, the decoded exception list and the
redacted response body exactly once, as the last record, preceded only by
(possibly absent) decode-error and response-read-error records. -/
theorem C8_diagnostics (decode : List Char → Option (List SentryException))
    (b : BodyStream) (inner : InnerTransport)
    (hfail : recStatus inner ≥ 400 ∨ inner.resp = none) :
    (b.readErr = true →
      (LogSentrySendFailuresRoundTrip decode (some b) inner).records
        = [⟨recoverBodyMsg, true, recStatus inner, none, [], none⟩])
    ∧ (b.readErr = false →
      ∃ pre,
        (LogSentrySendFailuresRoundTrip decode (some b) inner).records
          = pre ++ [⟨sentryEventMsg, false, recStatus inner, none,
              (decode (b.data.drop (min inner.consumed b.data.length))).getD [],
              some (RedactDSN (match inner.resp with
                | some r => r.Body.data
                | none => []))⟩]
        ∧ (∀ rec ∈ pre, rec.Msg ≠ sentryEventMsg)
        ∧ pre ⊆ [⟨recoverJsonMsg, true, recStatus inner,
              some (RedactDSN (b.data.drop (min inner.consumed b.data.length))),
              [], none⟩,
            ⟨readRespMsg, true, recStatus inner, none, [], none⟩]) := by
  have hmsg1 : recoverJsonMsg ≠ sentryEventMsg := by decide
  have hmsg2 : readRespMsg ≠ sentryEventMsg := by decide
  constructor
  · intro hre
    simp only [LogSentrySendFailuresRoundTrip]
    rw [if_pos hfail, if_pos hre]
  · intro hre
    simp only [LogSentrySendFailuresRoundTrip]
    rw [if_pos hfail, if_neg (by simp [hre])]
    cases hresp : inner.resp with
    | none =>
      cases hdec : decode (b.data.drop (min inner.consumed b.data.length)) with
      | none =>
        refine ⟨[⟨recoverJsonMsg, true, recStatus inner,
          some (RedactDSN (b.data.drop (min inner.consumed b.data.length))), [], none⟩],
          ?_, ?_, ?_⟩
        · simp only [hdec]
        · intro rec hrec
          simp at hrec
          rw [hrec]
          exact hmsg1
        · intro rec hrec
          simp at hrec
          simp [hrec]
      | some l =>
        refine ⟨[], ?_, by simp, by simp⟩
        simp [hdec]
    | some r =>
      cases hdec : decode (b.data.drop (min inner.consumed b.data.length)) with
      | none =>
        cases hbe : r.Body.readErr with
        | true =>
          refine ⟨[⟨recoverJsonMsg, true, recStatus inner,
              some (RedactDSN (b.data.drop (min inner.consumed b.data.length))), [], none⟩,
            ⟨readRespMsg, true, recStatus inner, none, [], none⟩], ?_, ?_, ?_⟩
          · simp only [hdec, hbe]
            simp
          · intro rec hrec
            simp at hrec
            rcases hrec with h | h <;> rw [h]
            · exact hmsg1
            · exact hmsg2
          · intro rec hrec
            simp at hrec
            rcases hrec with h | h <;> simp [h]
        | false =>
          refine ⟨[⟨recoverJsonMsg, true, recStatus inner,
              some (RedactDSN (b.data.drop (min inner.consumed b.data.length))), [], none⟩],
            ?_, ?_, ?_⟩
          · simp only [hdec, hbe]
            simp
          · intro rec hrec
            simp at hrec
            rw [hrec]
            exact hmsg1
          · intro rec hrec
            simp at hrec
            simp [hrec]
      | some l =>
        cases hbe : r.Body.readErr with
        | true =>
          refine ⟨[⟨readRespMsg, true, recStatus inner, none, [], none⟩], ?_, ?_, ?_⟩
          · simp only [hdec, hbe]
            simp
          · intro rec hrec
            simp at hrec
            rw [hrec]
            exact hmsg2
          · intro rec hrec
            simp at hrec
            simp [hrec]
        | false =>
          refine ⟨[], ?_, by simp, by simp⟩
          simp only [hdec, hbe]
          simp

/-- C8 (witness): the diagnostics theorem applied at a concrete failed
attempt whose recovery read fails: exactly the recovery record is
emitted. -/
theorem C8_witness :
    (LogSentrySendFailuresRoundTrip (fun _ => none) (some ⟨['x'], true⟩)
        ⟨some ⟨500, ⟨[], false⟩⟩, none, 0⟩).records
      = [⟨recoverBodyMsg, true, 500, none, [], none⟩] :=
  (C8_diagnostics (fun _ => none) ⟨['x'], true⟩
    ⟨some ⟨500, ⟨[], false⟩⟩, none, 0⟩ (Or.inl (by decide))).1 rfl

/-! ### Redactor: takeWhile facts -/

theorem drop_length_takeWhile (p : Char → Bool) (l : List Char) :
    l.drop (l.takeWhile p).length = l.dropWhile p := by
  have h := List.takeWhile_append_dropWhile p l
  calc l.drop (l.takeWhile p).length
      = (l.takeWhile p ++ l.dropWhile p).drop (l.takeWhile p).length := by rw [h]
    _ = l.dropWhile p := List.drop_left _ _

theorem takeWhile_drop (p : Char → Bool) :
    ∀ (l : List Char) (k : Nat), k ≤ (l.takeWhile p).length →
      (l.drop k).takeWhile p = (l.takeWhile p).drop k := by
  intro l
  induction l with
  | nil => intro k hk; simp at hk; subst hk; rfl
  | cons c t ih =>
    intro k hk
    cases k with
    | zero => rfl
    | succ k =>
      cases hp : p c with
      | false =>
        rw [List.takeWhile_cons_of_neg (by simp [hp])] at hk
        simp at hk
      | true =>
        rw [List.takeWhile_cons_of_pos hp] at hk ⊢
        simp only [List.length_cons, Nat.succ_le_succ_iff] at hk
        simp only [List.drop_succ_cons]
        exact ih k hk

theorem length_takeWhile_ge (p : Char → Bool) :
    ∀ (l : List Char) (n : Nat), (∀ c ∈ l.take n, p c = true) → n ≤ l.length →
      n ≤ (l.takeWhile p).length := by
  intro l
  induction l with
  | nil => intro n _ h2; simpa using h2
  | cons c t ih =>
    intro n h1 h2
    cases n with
    | zero => exact Nat.zero_le _
    | succ n =>
      have hc : p c = true := h1 c (by simp)
      rw [List.takeWhile_cons_of_pos hc]
      simp only [List.length_cons, Nat.succ_le_succ_iff] at h2 ⊢
      refine ih n ?_ h2
      intro x hx
      exact h1 x (by simp [hx])

theorem take_length_takeWhile (p : Char → Bool) (l : List Char) :
    l.take (l.takeWhile p).length = l.takeWhile p := by
  have h := List.takeWhile_append_dropWhile p l
  calc l.take (l.takeWhile p).length
      = (l.takeWhile p ++ l.dropWhile p).take (l.takeWhile p).length := by rw [h]
    _ = l.takeWhile p := List.take_left _ _

theorem sentryLit_nd : ∀ c ∈ sentryLit, (!isDelim c) = true := by decide

theorem redactedTok_nd : ∀ c ∈ redactedTok, (!isDelim c) = true := by decide

/-! ### Redactor: the leftmost-greedy match covers exactly a qualifying run -/

theorem matchTail_spec_fwd {s : List Char} {m t : Nat}
    (hm : m ≤ ((s.takeWhile (fun c => !isDelim c)).length))
    (h : matchTail (s.drop m) = some t) :
    sentryLit <+: (s.takeWhile (fun c => !isDelim c)).drop m
    ∧ m + sentryLit.length < (s.takeWhile (fun c => !isDelim c)).length
    ∧ m + t = (s.takeWhile (fun c => !isDelim c)).length := by
  unfold matchTail at h
  by_cases hpre : sentryLit.isPrefixOf (s.drop m) = true
  swap
  · rw [if_neg hpre] at h; exact absurd h (by simp)
  rw [if_pos hpre] at h
  have hlitpre : sentryLit <+: s.drop m := List.isPrefixOf_iff_prefix.mp hpre
  rw [List.drop_drop] at h
  by_cases hr1 :
      ((s.drop (m + sentryLit.length)).takeWhile (fun c => !isDelim c)).length ≥ 1
  swap
  · rw [if_neg hr1] at h; exact absurd h (by simp)
  rw [if_pos hr1] at h
  injection h with ht
  obtain ⟨w, hw⟩ : (s.takeWhile (fun c => !isDelim c)) <+: s :=
    List.takeWhile_prefix _
  have hL_le : m + sentryLit.length ≤ s.length := by
    have h1 := hlitpre.length_le
    have h2 : (s.drop m).length = s.length - m := List.length_drop m s
    have h3 : m ≤ s.length :=
      le_trans hm (List.takeWhile_prefix (l := s) (fun c => !isDelim c)).length_le
    omega
  have hrest_le :
      ((s.drop (m + sentryLit.length)).takeWhile (fun c => !isDelim c)).length
        ≤ s.length - (m + sentryLit.length) := by
    have h1 := (List.takeWhile_prefix
      (l := s.drop (m + sentryLit.length)) (fun c => !isDelim c)).length_le
    simpa using h1
  have hall : ∀ c ∈ s.take (m + (sentryLit.length +
      ((s.drop (m + sentryLit.length)).takeWhile (fun c => !isDelim c)).length)),
      (!isDelim c) = true := by
    rw [List.take_add, List.take_add]
    intro c hc
    rcases List.mem_append.mp hc with hc1 | hc2
    · have hmk : s.take m = (s.takeWhile (fun c => !isDelim c)).take m := by
        conv_lhs => rw [← hw]
        exact List.take_append_of_le_length hm
      rw [hmk] at hc1
      exact List.mem_takeWhile_imp (p := fun c => !isDelim c)
        (List.take_subset _ _ hc1)
    · rcases List.mem_append.mp hc2 with hc3 | hc4
      · obtain ⟨w2, hw2⟩ := hlitpre
        have he : (s.drop m).take sentryLit.length = sentryLit := by
          conv_lhs => rw [← hw2]
          exact List.take_left _ _
        rw [he] at hc3
        exact sentryLit_nd c hc3
      · rw [List.drop_drop] at hc4
        rw [take_length_takeWhile] at hc4
        exact List.mem_takeWhile_imp (p := fun c => !isDelim c) hc4
  have hge : m + (sentryLit.length +
      ((s.drop (m + sentryLit.length)).takeWhile (fun c => !isDelim c)).length)
      ≤ (s.takeWhile (fun c => !isDelim c)).length :=
    length_takeWhile_ge _ s _ hall (by omega)
  have hrest_eq : (s.drop (m + sentryLit.length)).takeWhile (fun c => !isDelim c)
      = (s.takeWhile (fun c => !isDelim c)).drop (m + sentryLit.length) :=
    takeWhile_drop _ s (m + sentryLit.length) (by omega)
  have hrlen : ((s.drop (m + sentryLit.length)).takeWhile (fun c => !isDelim c)).length
      = (s.takeWhile (fun c => !isDelim c)).length - (m + sentryLit.length) := by
    rw [hrest_eq, List.length_drop]
  have hlit_run : sentryLit <+: (s.takeWhile (fun c => !isDelim c)).drop m := by
    have hsm : s.drop m = (s.takeWhile (fun c => !isDelim c)).drop m ++ w := by
      conv_lhs => rw [← hw]
      exact List.drop_append_of_le_length hm
    obtain ⟨w2, hw2⟩ := hlitpre
    have h1 : (s.drop m).take sentryLit.length = sentryLit := by
      conv_lhs => rw [← hw2]
      exact List.take_left _ _
    have h2 : (s.drop m).take sentryLit.length
        = ((s.takeWhile (fun c => !isDelim c)).drop m).take sentryLit.length := by
      rw [hsm]
      exact List.take_append_of_le_length (by simp only [List.length_drop]; omega)
    rw [h1] at h2
    rw [h2]
    exact List.take_prefix _ _
  exact ⟨hlit_run, by omega, by omega⟩

theorem matchTail_spec_bwd {s : List Char} {m : Nat}
    (h1 : sentryLit <+: (s.takeWhile (fun c => !isDelim c)).drop m)
    (h2 : m + sentryLit.length < (s.takeWhile (fun c => !isDelim c)).length) :
    matchTail (s.drop m) = some ((s.takeWhile (fun c => !isDelim c)).length - m) := by
  obtain ⟨w, hw⟩ : (s.takeWhile (fun c => !isDelim c)) <+: s :=
    List.takeWhile_prefix _
  have hm : m ≤ (s.takeWhile (fun c => !isDelim c)).length := by omega
  have hsm : s.drop m = (s.takeWhile (fun c => !isDelim c)).drop m ++ w := by
    conv_lhs => rw [← hw]
    exact List.drop_append_of_le_length hm
  have hpre : sentryLit <+: s.drop m := by
    rw [hsm]
    exact h1.trans (List.prefix_append _ _)
  have hrest : (s.drop (m + sentryLit.length)).takeWhile (fun c => !isDelim c)
      = (s.takeWhile (fun c => !isDelim c)).drop (m + sentryLit.length) :=
    takeWhile_drop _ s (m + sentryLit.length) (by omega)
  unfold matchTail
  rw [if_pos (List.isPrefixOf_iff_prefix.mpr hpre), List.drop_drop, hrest]
  rw [if_pos (by simp only [List.length_drop]; omega)]
  congr 1
  simp only [List.length_drop]
  omega

theorem tryFirst_none (s : List Char) :
    ∀ J, (∀ m, 1 ≤ m → m ≤ J → matchTail (s.drop m) = none) → tryFirst s J = none := by
  intro J
  induction J with
  | zero => intro _; rfl
  | succ J ih =>
    intro h
    unfold tryFirst
    rw [h (J+1) (by omega) (by omega)]
    exact ih fun m h1 h2 => h m h1 (by omega)

theorem tryFirst_some (s : List Char) (n : Nat) :
    ∀ J, (∀ m t, 1 ≤ m → m ≤ J → matchTail (s.drop m) = some t → m + t = n) →
      (∃ m, 1 ≤ m ∧ m ≤ J ∧ matchTail (s.drop m) ≠ none) →
      tryFirst s J = some n := by
  intro J
  induction J with
  | zero =>
    rintro _ ⟨m, h1, h2, _⟩
    exact absurd (le_trans h1 h2) (by simp)
  | succ J ih =>
    rintro hval ⟨m, h1, h2, h3⟩
    unfold tryFirst
    cases hmt : matchTail (s.drop (J+1)) with
    | some t =>
      have := hval (J+1) t (by omega) (by omega) hmt
      simp only [Option.some.injEq]
      omega
    | none =>
      refine ih (fun m t h1 h2 ht => hval m t h1 (by omega) ht) ⟨m, h1, ?_, h3⟩
      rcases Nat.lt_or_ge m (J+1) with hlt | hge
      · omega
      · have hm : m = J + 1 := by omega
        rw [hm] at h3
        exact absurd hmt h3

theorem matchAt_of_qualifies {s : List Char}
    (hq : qualifiesRun (s.takeWhile (fun c => !isDelim c)) = true) :
    matchAt s = some (s.takeWhile (fun c => !isDelim c)).length := by
  unfold qualifiesRun at hq
  rw [List.any_eq_true] at hq
  obtain ⟨i, hmem, hcond⟩ := hq
  rw [List.mem_range] at hmem
  simp only [Bool.and_eq_true, decide_eq_true_eq] at hcond
  obtain ⟨⟨hi1, hipre⟩, hilen⟩ := hcond
  unfold matchAt
  apply tryFirst_some
  · intro m t h1 h2 ht
    exact (matchTail_spec_fwd h2 ht).2.2
  · refine ⟨i, hi1, by omega, ?_⟩
    rw [matchTail_spec_bwd (List.isPrefixOf_iff_prefix.mp hipre) hilen]
    simp

theorem matchAt_of_not_qualifies {s : List Char}
    (hq : qualifiesRun (s.takeWhile (fun c => !isDelim c)) = false) :
    matchAt s = none := by
  unfold matchAt
  apply tryFirst_none
  intro m h1 h2
  cases hmt : matchTail (s.drop m) with
  | none => rfl
  | some t =>
    exfalso
    obtain ⟨hpre, hlt, -⟩ := matchTail_spec_fwd h2 hmt
    have : qualifiesRun (s.takeWhile (fun c => !isDelim c)) = true := by
      unfold qualifiesRun
      rw [List.any_eq_true]
      refine ⟨m, List.mem_range.mpr (by omega), ?_⟩
      simp only [Bool.and_eq_true, decide_eq_true_eq]
      exact ⟨⟨h1, List.isPrefixOf_iff_prefix.mpr hpre⟩, hlt⟩
    rw [this] at hq
    exact absurd hq (by simp)

theorem matchAt_delim {c : Char} {rest : List Char} (hc : isDelim c = true) :
    matchAt (c :: rest) = none := by
  unfold matchAt
  rw [List.takeWhile_cons_of_neg (by simp [hc])]
  rfl

theorem qualifiesRun_cons_of_suffix {c : Char} {run : List Char}
    (h : qualifiesRun run = true) : qualifiesRun (c :: run) = true := by
  unfold qualifiesRun at h ⊢
  rw [List.any_eq_true] at h ⊢
  obtain ⟨i, hmem, hcond⟩ := h
  rw [List.mem_range] at hmem
  simp only [Bool.and_eq_true, decide_eq_true_eq] at hcond
  obtain ⟨⟨hi1, hipre⟩, hilen⟩ := hcond
  refine ⟨i + 1, List.mem_range.mpr (by simp; omega), ?_⟩
  simp only [Bool.and_eq_true, decide_eq_true_eq]
  refine ⟨⟨by omega, ?_⟩, by simp; omega⟩
  simpa using hipre

theorem redactLoop_nil (fuel : Nat) : redactLoop fuel [] = [] := by
  cases fuel <;> rfl

theorem redactLoop_cons (fuel : Nat) (c : Char) (rest : List Char) :
    redactLoop (fuel + 1) (c :: rest)
      = match matchAt (c :: rest) with
        | some n => redactedTok ++ redactLoop fuel ((c :: rest).drop n)
        | none => c :: redactLoop fuel rest := rfl

theorem redactLoop_cons_none {c : Char} {rest : List Char} (fuel : Nat)
    (h : matchAt (c :: rest) = none) :
    redactLoop (fuel + 1) (c :: rest) = c :: redactLoop fuel rest := by
  rw [redactLoop_cons, h]

theorem redactLoop_cons_some {c : Char} {rest : List Char} {n : Nat} (fuel : Nat)
    (h : matchAt (c :: rest) = some n) :
    redactLoop (fuel + 1) (c :: rest)
      = redactedTok ++ redactLoop fuel ((c :: rest).drop n) := by
  rw [redactLoop_cons, h]

theorem specRedact_nil : specRedact [] = [] := by
  rw [specRedact]

theorem specRedact_delim {c : Char} (rest : List Char) (hc : isDelim c = true) :
    specRedact (c :: rest) = c :: specRedact rest := by
  rw [specRedact, dif_pos hc]

theorem specRedact_cons_nd {c : Char} (rest : List Char) (hc : ¬ isDelim c = true) :
    specRedact (c :: rest)
      = (if qualifiesRun ((c :: rest).takeWhile (fun c => !isDelim c)) then redactedTok
         else (c :: rest).takeWhile (fun c => !isDelim c))
        ++ specRedact ((c :: rest).drop
            ((c :: rest).takeWhile (fun c => !isDelim c)).length) := by
  rw [specRedact, dif_neg hc]

/-- When the leading run does not qualify, `specRedact` just copies the run
(and, in particular, a non-matching head character). -/
theorem specRedact_run_expand (t : List Char)
    (hq : qualifiesRun (t.takeWhile (fun c => !isDelim c)) = false) :
    specRedact t = t.takeWhile (fun c => !isDelim c)
      ++ specRedact (t.drop (t.takeWhile (fun c => !isDelim c)).length) := by
  cases t with
  | nil => simp [specRedact_nil]
  | cons d t' =>
    by_cases hd : isDelim d
    · rw [List.takeWhile_cons_of_neg (by simp [hd])]
      simp
    · rw [specRedact_cons_nd t' hd, if_neg (by rw [hq]; simp)]

/-- The interceptor's scan agrees with the run-based description, given
enough fuel. -/
theorem redactLoop_eq_specRedact :
    ∀ (fuel : Nat) (s : List Char), s.length ≤ fuel →
      redactLoop fuel s = specRedact s := by
  intro fuel
  induction fuel with
  | zero =>
    intro s hs
    have hnil : s = [] := List.length_eq_zero.mp (by omega)
    subst hnil
    rw [redactLoop_nil, specRedact_nil]
  | succ fuel ih =>
    intro s hs
    cases s with
    | nil => rw [redactLoop_nil, specRedact_nil]
    | cons c rest =>
      by_cases hc : isDelim c
      · rw [redactLoop_cons_none fuel (matchAt_delim hc), specRedact_delim rest hc,
          ih rest (by simp at hs; omega)]
      · have hrun : (c :: rest).takeWhile (fun c => !isDelim c)
            = c :: rest.takeWhile (fun c => !isDelim c) :=
          List.takeWhile_cons_of_pos (by simp [hc])
        by_cases hq : qualifiesRun ((c :: rest).takeWhile (fun c => !isDelim c)) = true
        · rw [redactLoop_cons_some fuel (matchAt_of_qualifies hq),
            specRedact_cons_nd rest hc, if_pos hq]
          have hlen : ((c :: rest).drop
              ((c :: rest).takeWhile (fun c => !isDelim c)).length).length ≤ fuel := by
            rw [hrun]
            simp only [List.length_cons, List.drop_succ_cons, List.length_drop]
            simp only [List.length_cons] at hs
            omega
          rw [ih _ hlen]
        · rw [Bool.not_eq_true] at hq
          rw [redactLoop_cons_none fuel (matchAt_of_not_qualifies hq),
            specRedact_cons_nd rest hc, if_neg (by rw [hq]; simp)]
          rw [ih rest (by simp at hs; omega)]
          have hq' : qualifiesRun (rest.takeWhile (fun c => !isDelim c)) = false := by
            cases hq2 : qualifiesRun (rest.takeWhile (fun c => !isDelim c)) with
            | false => rfl
            | true =>
              rw [hrun] at hq
              rw [qualifiesRun_cons_of_suffix hq2] at hq
              exact absurd hq (by simp)
          rw [specRedact_run_expand rest hq', hrun]
          simp

/-- `RedactDSN` agrees with the run-based description of the spec. -/
theorem redact_eq_spec (s : List Char) : RedactDSN s = specRedact s :=
  redactLoop_eq_specRedact s.length s le_rfl

/-! ### Redactor idempotence -/

theorem dropWhile_head_not (p : Char → Bool) (l : List Char) (d : Char) (t : List Char)
    (h : l.dropWhile p = d :: t) : p d = false := by
  induction l with
  | nil => simp at h
  | cons c l ih =>
    rw [List.dropWhile_cons] at h
    by_cases hp : p c
    · rw [if_pos hp] at h
      exact ih h
    · rw [if_neg hp] at h
      injection h with h1 _
      rw [← h1]
      simpa using hp

theorem specRedact_head (X : List Char)
    (hX : ∀ d, X.head? = some d → isDelim d = true) :
    ∀ d, (specRedact X).head? = some d → isDelim d = true := by
  cases X with
  | nil => rw [specRedact_nil]; intro d hd; simp at hd
  | cons x t =>
    have hx : isDelim x = true := hX x rfl
    rw [specRedact_delim t hx]
    intro d hd
    simp only [List.head?_cons, Option.some.injEq] at hd
    rw [← hd]
    exact hx

/-- Prepending a non-qualifying-or-qualifying delimiter-free run before a
buffer whose head (if any) is a delimiter. -/
theorem specRedact_append (run X : List Char) (hne : run ≠ [])
    (hnd : ∀ c ∈ run, (!isDelim c) = true)
    (hX : ∀ d, X.head? = some d → isDelim d = true) :
    specRedact (run ++ X)
      = (if qualifiesRun run then redactedTok else run) ++ specRedact X := by
  obtain ⟨c, run₂, rfl⟩ : ∃ c run₂, run = c :: run₂ := by
    cases run with
    | nil => exact absurd rfl hne
    | cons c r => exact ⟨c, r, rfl⟩
  have hc : ¬ isDelim c = true := by
    have := hnd c (by simp)
    simp at this
    simp [this]
  have htw : ((c :: run₂) ++ X).takeWhile (fun c => !isDelim c) = c :: run₂ := by
    rw [List.takeWhile_append]
    rw [List.takeWhile_eq_self_iff.mpr hnd]
    rw [if_pos rfl]
    cases X with
    | nil => simp
    | cons d t =>
      rw [List.takeWhile_cons_of_neg (by simp [hX d rfl])]
      simp
  rw [show (c :: run₂) ++ X = c :: (run₂ ++ X) from rfl] at htw ⊢
  rw [specRedact_cons_nd (run₂ ++ X) hc, htw]
  congr 1
  rw [show c :: (run₂ ++ X) = (c :: run₂) ++ X from rfl,
    show (c :: run₂).length = (c :: run₂).length from rfl,
    List.drop_left]

theorem specRedact_idem : ∀ (s : List Char), specRedact (specRedact s) = specRedact s := by
  have H : ∀ (n : Nat) (s : List Char), s.length ≤ n →
      specRedact (specRedact s) = specRedact s := by
    intro n
    induction n with
    | zero =>
      intro s hs
      have hnil : s = [] := List.length_eq_zero.mp (by omega)
      subst hnil
      rw [specRedact_nil, specRedact_nil]
    | succ n ih =>
      intro s hs
      cases s with
      | nil => rw [specRedact_nil, specRedact_nil]
      | cons c rest =>
        by_cases hc : isDelim c
        · rw [specRedact_delim rest hc, specRedact_delim (specRedact rest) hc,
            ih rest (by simp at hs; omega)]
        · have hrun : (c :: rest).takeWhile (fun c => !isDelim c)
              = c :: rest.takeWhile (fun c => !isDelim c) :=
            List.takeWhile_cons_of_pos (by simp [hc])
          have hrest_head : ∀ d,
              ((c :: rest).drop
                ((c :: rest).takeWhile (fun c => !isDelim c)).length).head? = some d →
              isDelim d = true := by
            rw [drop_length_takeWhile]
            intro d hd
            cases hdw : (c :: rest).dropWhile (fun c => !isDelim c) with
            | nil => rw [hdw] at hd; simp at hd
            | cons e t =>
              rw [hdw] at hd
              simp only [List.head?_cons, Option.some.injEq] at hd
              have hnd := dropWhile_head_not (fun c => !isDelim c) (c :: rest) e t hdw
              rw [← hd]
              simpa using hnd
          have hnd_run : ∀ x ∈ (c :: rest).takeWhile (fun c => !isDelim c),
              (!isDelim x) = true := fun x hx =>
            List.mem_takeWhile_imp (p := fun c => !isDelim c) hx
          have hhead_sr : ∀ d,
              (specRedact ((c :: rest).drop
                ((c :: rest).takeWhile (fun c => !isDelim c)).length)).head? = some d →
              isDelim d = true :=
            specRedact_head _ hrest_head
          have hlen_rest : ((c :: rest).drop
              ((c :: rest).takeWhile (fun c => !isDelim c)).length).length ≤ n := by
            rw [hrun]
            simp only [List.length_cons, List.drop_succ_cons, List.length_drop]
            simp only [List.length_cons] at hs
            omega
          by_cases hq : qualifiesRun ((c :: rest).takeWhile (fun c => !isDelim c)) = true
          · rw [specRedact_cons_nd rest hc, if_pos hq]
            rw [specRedact_append redactedTok _ (by decide) redactedTok_nd hhead_sr]
            rw [ih _ hlen_rest]
            rw [ite_self]
          · rw [Bool.not_eq_true] at hq
            rw [specRedact_cons_nd rest hc, if_neg (by rw [hq]; simp)]
            rw [specRedact_append _ _ (by rw [hrun]; simp) hnd_run hhead_sr]
            rw [if_neg (by rw [hq]; simp), ih _ hlen_rest]
  exact fun s => H s.length s le_rfl

/-- C7: `RedactDSN` replaces every non-overlapping maximal run of
non-space, non-quote characters that contains `sentry.io/` preceded by at
least one and followed by at least one further such character, wholesale,
with `REDACTED`, and leaves every byte outside the matched spans unchanged
(stated as equivalence with the run-based reference function transcribed
from the spec); the spec's concrete DSN example redacts as claimed. -/
theorem C7_redact_spec :
    (∀ body : List Char, RedactDSN body = specRedact body)
    ∧ RedactDSN
        "\x7b\"a\":\"b\", \"dsn\":\"https://abc@def.ingest.sentry.io/123\"\x7d".toList
      = "\x7b\"a\":\"b\", \"dsn\":\"REDACTED\"\x7d".toList := by
  refine ⟨redact_eq_spec, ?_⟩
  decide

/-- C10: the redactor is idempotent: replacing matched spans with
`REDACTED` never creates a new match, because a match is delimited by
space, quote or buffer boundaries and `REDACTED` contains no
`sentry.io/`. -/
theorem C10_redact_idempotent (body : List Char) :
    RedactDSN (RedactDSN body) = RedactDSN body := by
  rw [redact_eq_spec body, redact_eq_spec (specRedact body), specRedact_idem]

end SentryMW
